import Mathlib

/-!
Shallow embedding of `ShuffleBuf` (src/lib.rs), a fixed-capacity compacting
byte buffer.  The backing array `buf: [u8; SIZE]` is modelled as a `List Nat`
whose length plays the role of `SIZE`; the two cursors are `Nat` fields.
Rust range copies are modelled by `writeAt` (overwrite a contiguous region),
and `usize` subtraction, slicing and indexing have `checked` variants that
return `none` exactly where the Rust code would panic.
-/

/-- The buffer state: backing storage plus the two cursors.  The capacity
`SIZE` of the Rust const generic is `buf.length`. -/
structure ShuffleBuf where
  buf : List Nat
  read_idx : Nat
  write_idx : Nat
  deriving Repr, DecidableEq

/-- Models `dst[pos .. pos + data.len()].copy_from_slice(data)`: overwrite the
region of `dst` starting at `pos` with `data`, leaving the rest unchanged
(meaningful when `pos + data.length ≤ dst.length`). -/
def writeAt (dst : List Nat) (pos : Nat) (data : List Nat) : List Nat :=
  dst.take pos ++ data ++ dst.drop (pos + data.length)

/-- The subrange `l[lo .. hi]` of a list. -/
def sliceOf (l : List Nat) (lo hi : Nat) : List Nat :=
  (l.drop lo).take (hi - lo)

namespace ShuffleBuf

/-- `ShuffleBuf::default()`: zeroed storage of the given capacity, both
cursors at 0. -/
def default (size : Nat) : ShuffleBuf :=
  { buf := List.replicate size 0, read_idx := 0, write_idx := 0 }

/-- `available(&self)`: `self.write_idx - self.read_idx`. -/
def available (s : ShuffleBuf) : Nat :=
  s.write_idx - s.read_idx

/-- `vacant(&self)`: `self.buf.len() - self.write_idx`. -/
def vacant (s : ShuffleBuf) : Nat :=
  s.buf.length - s.write_idx

/-- `shuffle_up(&mut self)`: move the live window `buf[read_idx..write_idx]`
to the start of the storage and reset the cursors. -/
def shuffle_up (s : ShuffleBuf) : ShuffleBuf :=
  if s.read_idx > 0 then
    let avail := s.write_idx - s.read_idx
    let buf' := if avail > 0 then writeAt s.buf 0 (sliceOf s.buf s.read_idx s.write_idx) else s.buf
    { buf := buf', read_idx := 0, write_idx := avail }
  else s

/-- `read_one(&mut self)`: returns the new state together with the pair
`(count, byte)` returned by the Rust function. -/
def read_one (s : ShuffleBuf) : ShuffleBuf × Nat × Nat :=
  if s.write_idx > s.read_idx then
    let val := s.buf.getD s.read_idx 0
    let s1 : ShuffleBuf := { s with read_idx := s.read_idx + 1 }
    let s2 := if s1.read_idx > 4 then s1.shuffle_up else s1
    (s2, 1, val)
  else (s, 0, 0)

/-- `read_many(&mut self, out_buf)`: returns the new state, the updated
`out_buf` and the returned `read_count`. -/
def read_many (s : ShuffleBuf) (out_buf : List Nat) : ShuffleBuf × List Nat × Nat :=
  let avail := s.write_idx - s.read_idx
  if avail > 0 then
    let desired := out_buf.length
    let read_count := if desired > avail then avail else desired
    let out' := writeAt out_buf 0 (sliceOf s.buf s.read_idx (s.read_idx + read_count))
    let s1 : ShuffleBuf := { s with read_idx := s.read_idx + read_count }
    (s1.shuffle_up, out', read_count)
  else (s, out_buf, 0)

/-- `push_one(&mut self, data)`: returns the new state and the count (0 or 1). -/
def push_one (s : ShuffleBuf) (data : Nat) : ShuffleBuf × Nat :=
  if s.buf.length > s.write_idx then
    ({ s with buf := s.buf.set s.write_idx data, write_idx := s.write_idx + 1 }, 1)
  else (s, 0)

/-- `push_many(&mut self, data)`: returns the new state and `copy_count`. -/
def push_many (s : ShuffleBuf) (data : List Nat) : ShuffleBuf × Nat :=
  let vacant := s.buf.length - s.write_idx
  if vacant > 0 then
    let desired := data.length
    let copy_count := if desired < vacant then desired else vacant
    let buf' := writeAt s.buf s.write_idx (data.take copy_count)
    ({ s with buf := buf', write_idx := s.write_idx + copy_count }, copy_count)
  else (s, 0)

end ShuffleBuf

/-- The structural invariant of the buffer:
`read_idx ≤ write_idx ≤ capacity`. -/
def Invariant (s : ShuffleBuf) : Prop :=
  s.read_idx ≤ s.write_idx ∧ s.write_idx ≤ s.buf.length

instance (s : ShuffleBuf) : Decidable (Invariant s) :=
  inferInstanceAs (Decidable (_ ∧ _))

/-- The unread window `buf[read_idx .. write_idx]`: the abstract FIFO
contents of the buffer. -/
def contents (s : ShuffleBuf) : List Nat :=
  sliceOf s.buf s.read_idx s.write_idx

/-- One call of the public mutating API. -/
inductive Op where
  | pushOne (b : Nat)
  | pushMany (data : List Nat)
  | readOne
  | readMany (out_buf : List Nat)
  deriving Repr

/-- Apply one operation to a state, keeping only the state. -/
def applyOp (s : ShuffleBuf) : Op → ShuffleBuf
  | .pushOne b => (s.push_one b).1
  | .pushMany data => (s.push_many data).1
  | .readOne => s.read_one.1
  | .readMany out_buf => (s.read_many out_buf).1

/-- Run a sequence of operations from a state. -/
def runOps (s : ShuffleBuf) (ops : List Op) : ShuffleBuf :=
  ops.foldl applyOp s

example : (ShuffleBuf.default 3).push_one 7 =
    ({ buf := [7, 0, 0], read_idx := 0, write_idx := 1 }, 1) := by decide

example : ((ShuffleBuf.default 3).push_many [5, 6]).1.read_many [0] =
    ({ buf := [6, 6, 0], read_idx := 0, write_idx := 1 }, [5], 1) := by decide

theorem writeAt_length (dst data : List Nat) (pos : Nat)
    (h : pos + data.length ≤ dst.length) :
    (writeAt dst pos data).length = dst.length := by
  simp only [writeAt, List.length_append, List.length_take, List.length_drop]
  omega

theorem sliceOf_length (l : List Nat) (lo hi : Nat) (hhi : hi ≤ l.length) :
    (sliceOf l lo hi).length = hi - lo := by
  simp only [sliceOf, List.length_take, List.length_drop]
  omega

theorem if_lt_min (a b : Nat) : (if a < b then a else b) = min a b := by
  split <;> omega

theorem if_gt_min (a b : Nat) : (if a > b then b else a) = min a b := by
  split <;> omega

namespace ShuffleBuf

/-- Under the invariant, `shuffle_up` always produces the state whose storage
has the live window moved to the front, with `read_idx = 0` and
`write_idx = avail` (all three branches of the source collapse to this). -/
theorem shuffle_up_eq (s : ShuffleBuf) (h : Invariant s) :
    s.shuffle_up =
      { buf := writeAt s.buf 0 (sliceOf s.buf s.read_idx s.write_idx),
        read_idx := 0, write_idx := s.write_idx - s.read_idx } := by
  obtain ⟨h1, h2⟩ := h
  simp only [shuffle_up]
  split
  · split
    · rfl
    · next ha =>
      have h0 : s.write_idx - s.read_idx = 0 := by omega
      simp [writeAt, sliceOf, h0]
  · next hr =>
    have hr0 : s.read_idx = 0 := by omega
    have hbuf : writeAt s.buf 0 (sliceOf s.buf s.read_idx s.write_idx) = s.buf := by
      rw [hr0]
      simp only [writeAt, sliceOf, List.drop_zero, Nat.sub_zero, List.take_zero,
        List.nil_append, List.length_take, Nat.zero_add]
      rw [Nat.min_eq_left h2, List.take_append_drop]
    cases s with
    | mk buf r w => simp_all

theorem shuffle_up_length (s : ShuffleBuf) (h : Invariant s) :
    s.shuffle_up.buf.length = s.buf.length := by
  obtain ⟨h1, h2⟩ := h
  rw [shuffle_up_eq s ⟨h1, h2⟩]
  show (writeAt s.buf 0 (sliceOf s.buf s.read_idx s.write_idx)).length = s.buf.length
  rw [writeAt_length]
  rw [sliceOf_length _ _ _ h2]
  omega

theorem shuffle_up_inv (s : ShuffleBuf) (h : Invariant s) : Invariant s.shuffle_up := by
  obtain ⟨h1, h2⟩ := h
  rw [shuffle_up_eq s ⟨h1, h2⟩]
  refine ⟨Nat.zero_le _, ?_⟩
  show s.write_idx - s.read_idx ≤ (writeAt s.buf 0 (sliceOf s.buf s.read_idx s.write_idx)).length
  rw [writeAt_length]
  · omega
  · rw [sliceOf_length _ _ _ h2]
    omega

theorem push_one_inv (s : ShuffleBuf) (b : Nat) (h : Invariant s) :
    Invariant (s.push_one b).1 ∧ (s.push_one b).1.buf.length = s.buf.length := by
  obtain ⟨h1, h2⟩ := h
  simp only [push_one]
  split
  · refine ⟨⟨?_, ?_⟩, ?_⟩ <;> simp [List.length_set] <;> omega
  · exact ⟨⟨h1, h2⟩, rfl⟩

/-- Under `write_idx ≤ capacity`, `push_many` always accepts exactly
`min data.length vacant` bytes and writes them at `write_idx` (both branches
of the source collapse to this). -/
theorem push_many_eq (s : ShuffleBuf) (data : List Nat) :
    s.push_many data =
      ({ s with
          buf := writeAt s.buf s.write_idx
            (data.take (min data.length (s.buf.length - s.write_idx))),
          write_idx := s.write_idx + min data.length (s.buf.length - s.write_idx) },
        min data.length (s.buf.length - s.write_idx)) := by
  simp only [push_many, if_lt_min]
  split
  · rfl
  · next hv =>
    have h0 : s.buf.length - s.write_idx = 0 := by omega
    rw [h0]
    simp only [Nat.min_zero, List.take_zero, Nat.add_zero, writeAt, List.append_nil,
      List.length_nil, List.take_append_drop]

theorem push_many_inv (s : ShuffleBuf) (data : List Nat) (h : Invariant s) :
    Invariant (s.push_many data).1 ∧ (s.push_many data).1.buf.length = s.buf.length := by
  obtain ⟨h1, h2⟩ := h
  rw [push_many_eq s data]
  have hlen : (writeAt s.buf s.write_idx
      (data.take (min data.length (s.buf.length - s.write_idx)))).length = s.buf.length := by
    rw [writeAt_length]
    simp only [List.length_take]
    omega
  refine ⟨⟨?_, ?_⟩, ?_⟩
  · show s.read_idx ≤ s.write_idx + min data.length (s.buf.length - s.write_idx)
    omega
  · show s.write_idx + min data.length (s.buf.length - s.write_idx) ≤
      (writeAt s.buf s.write_idx
        (data.take (min data.length (s.buf.length - s.write_idx)))).length
    rw [hlen]
    omega
  · exact hlen

theorem read_one_inv (s : ShuffleBuf) (h : Invariant s) :
    Invariant s.read_one.1 ∧ s.read_one.1.buf.length = s.buf.length := by
  obtain ⟨h1, h2⟩ := h
  simp only [read_one]
  split
  · next hrw =>
    have hinv1 : Invariant { s with read_idx := s.read_idx + 1 } :=
      ⟨Nat.succ_le_of_lt hrw, h2⟩
    split
    · exact ⟨shuffle_up_inv _ hinv1, shuffle_up_length _ hinv1⟩
    · exact ⟨hinv1, rfl⟩
  · exact ⟨⟨h1, h2⟩, rfl⟩

theorem read_many_inv (s : ShuffleBuf) (out_buf : List Nat) (h : Invariant s) :
    Invariant (s.read_many out_buf).1 ∧ (s.read_many out_buf).1.buf.length = s.buf.length := by
  obtain ⟨h1, h2⟩ := h
  simp only [read_many, if_gt_min]
  split
  · have hinv1 : Invariant { s with
        read_idx := s.read_idx + min out_buf.length (s.write_idx - s.read_idx) } := by
      refine ⟨?_, h2⟩
      show s.read_idx + min out_buf.length (s.write_idx - s.read_idx) ≤ s.write_idx
      omega
    exact ⟨shuffle_up_inv _ hinv1, shuffle_up_length _ hinv1⟩
  · exact ⟨⟨h1, h2⟩, rfl⟩

end ShuffleBuf

theorem applyOp_inv (s : ShuffleBuf) (op : Op) (h : Invariant s) :
    Invariant (applyOp s op) ∧ (applyOp s op).buf.length = s.buf.length := by
  cases op with
  | pushOne b => exact s.push_one_inv b h
  | pushMany data => exact s.push_many_inv data h
  | readOne => exact s.read_one_inv h
  | readMany out_buf => exact s.read_many_inv out_buf h

theorem runOps_inv (s : ShuffleBuf) (ops : List Op) (h : Invariant s) :
    Invariant (runOps s ops) ∧ (runOps s ops).buf.length = s.buf.length := by
  induction ops generalizing s with
  | nil => exact ⟨h, rfl⟩
  | cons op ops ih =>
    obtain ⟨h1, h2⟩ := applyOp_inv s op h
    obtain ⟨h3, h4⟩ := ih (applyOp s op) h1
    exact ⟨h3, h4.trans h2⟩

theorem default_inv (size : Nat) : Invariant (ShuffleBuf.default size) :=
  ⟨Nat.le_refl 0, Nat.zero_le _⟩

/-- C1: starting from a fresh buffer of any capacity, after any sequence of
`push_one`, `push_many`, `read_one`, `read_many` calls the invariant
`0 ≤ read_idx ≤ write_idx ≤ capacity` holds (the capacity being the unchanged
storage length), including zero capacity and zero-length arguments. -/
theorem C1_invariant_preserved (size : Nat) (ops : List Op) :
    (runOps (ShuffleBuf.default size) ops).read_idx ≤
        (runOps (ShuffleBuf.default size) ops).write_idx ∧
      (runOps (ShuffleBuf.default size) ops).write_idx ≤
        (runOps (ShuffleBuf.default size) ops).buf.length ∧
      (runOps (ShuffleBuf.default size) ops).buf.length = size := by
  obtain ⟨⟨h1, h2⟩, h3⟩ := runOps_inv (ShuffleBuf.default size) ops (default_inv size)
  exact ⟨h1, h2, by simpa [ShuffleBuf.default] using h3⟩

theorem ShuffleBuf.shuffle_up_read_idx (s : ShuffleBuf) : s.shuffle_up.read_idx = 0 := by
  simp only [ShuffleBuf.shuffle_up]
  split
  · rfl
  · next h => omega

theorem applyOp_read_idx_le (s : ShuffleBuf) (op : Op) (h : s.read_idx ≤ 4) :
    (applyOp s op).read_idx ≤ 4 := by
  cases op with
  | pushOne b =>
    simp only [applyOp, ShuffleBuf.push_one]
    split
    · exact h
    · exact h
  | pushMany data =>
    simp only [applyOp, ShuffleBuf.push_many]
    split
    · exact h
    · exact h
  | readOne =>
    simp only [applyOp, ShuffleBuf.read_one]
    split
    · split
      · next h5 =>
        rw [ShuffleBuf.shuffle_up_read_idx]
        omega
      · next h5 => exact Nat.le_of_not_lt h5
    · exact h
  | readMany out_buf =>
    simp only [applyOp, ShuffleBuf.read_many]
    split
    · rw [ShuffleBuf.shuffle_up_read_idx]
      omega
    · exact h

/-- C9: in every state reachable from a fresh buffer by any sequence of
operations, `read_idx ≤ 4`: `read_one` compacts as soon as the incremented
`read_idx` exceeds 4, `read_many` compacts whenever data is available, pushes
never change `read_idx`, and the initial `read_idx` is 0 — so the
uncompacted dead zone at the head never exceeds 4 bytes. -/
theorem C9_read_idx_le_four (size : Nat) (ops : List Op) :
    (runOps (ShuffleBuf.default size) ops).read_idx ≤ 4 := by
  have main : ∀ (ops : List Op) (s : ShuffleBuf), s.read_idx ≤ 4 →
      (runOps s ops).read_idx ≤ 4 := by
    intro ops
    induction ops with
    | nil => intro s h; exact h
    | cons op ops ih => intro s h; exact ih (applyOp s op) (applyOp_read_idx_le s op h)
  exact main ops (ShuffleBuf.default size) (Nat.zero_le 4)

/-- C3: for every buffer state satisfying the invariant, `push_many data`
returns `min data.length (capacity - write_idx)` (tail space only, not
`capacity - available()`) and `read_many out_buf` returns
`min out_buf.length (write_idx - read_idx)`, each measured before the call. -/
theorem C3_short_counts (s : ShuffleBuf) (h : Invariant s) (data out_buf : List Nat) :
    (s.push_many data).2 = min data.length (s.buf.length - s.write_idx) ∧
      (s.read_many out_buf).2.2 = min out_buf.length (s.write_idx - s.read_idx) := by
  obtain ⟨h1, h2⟩ := h
  constructor
  · rw [ShuffleBuf.push_many_eq]
  · simp only [ShuffleBuf.read_many, if_gt_min]
    split
    · rfl
    · next hav =>
      show (0 : Nat) = min out_buf.length (s.write_idx - s.read_idx)
      omega

theorem C3_short_counts_witness :
    (({ buf := [10, 20, 30, 0], read_idx := 1, write_idx := 3 } : ShuffleBuf).push_many
        [7, 8, 9]).2 = 1 ∧
      (({ buf := [10, 20, 30, 0], read_idx := 1, write_idx := 3 } : ShuffleBuf).read_many
        [0]).2.2 = 1 := by
  have h := C3_short_counts { buf := [10, 20, 30, 0], read_idx := 1, write_idx := 3 }
    (by decide) [7, 8, 9] [0]
  exact ⟨h.1.trans (by decide), h.2.trans (by decide)⟩

/-- C6: on any buffer satisfying the invariant with `available() == 0`,
`read_one` returns `(0, 0)` and `read_many` returns 0, and neither call
mutates any part of the state, so repeated reads on an empty buffer are
idempotent. -/
theorem C6_empty_reads (s : ShuffleBuf) (h : Invariant s) (hav : s.available = 0)
    (out_buf : List Nat) :
    s.read_one = (s, 0, 0) ∧ s.read_many out_buf = (s, out_buf, 0) := by
  obtain ⟨h1, h2⟩ := h
  have hav' : s.write_idx - s.read_idx = 0 := hav
  constructor
  · simp only [ShuffleBuf.read_one]
    rw [if_neg]
    omega
  · simp only [ShuffleBuf.read_many]
    rw [if_neg]
    omega

theorem C6_empty_reads_witness :
    ({ buf := [9, 8, 7], read_idx := 2, write_idx := 2 } : ShuffleBuf).read_one =
        ({ buf := [9, 8, 7], read_idx := 2, write_idx := 2 }, 0, 0) ∧
      ({ buf := [9, 8, 7], read_idx := 2, write_idx := 2 } : ShuffleBuf).read_many [0, 0] =
        ({ buf := [9, 8, 7], read_idx := 2, write_idx := 2 }, [0, 0], 0) :=
  C6_empty_reads { buf := [9, 8, 7], read_idx := 2, write_idx := 2 } (by decide) (by decide)
    [0, 0]

/-- C8: on a zero-capacity buffer satisfying the invariant, every push
returns 0, every read returns count 0, and `available()` and `vacant()` are 0. -/
theorem C8_zero_capacity (s : ShuffleBuf) (hcap : s.buf.length = 0) (h : Invariant s)
    (b : Nat) (data out_buf : List Nat) :
    (s.push_one b).2 = 0 ∧ (s.push_many data).2 = 0 ∧ s.read_one.2.1 = 0 ∧
      (s.read_many out_buf).2.2 = 0 ∧ s.available = 0 ∧ s.vacant = 0 := by
  obtain ⟨h1, h2⟩ := h
  have hw : s.write_idx = 0 := by omega
  have hr : s.read_idx = 0 := by omega
  refine ⟨?_, ?_, ?_, ?_, ?_, ?_⟩
  · simp only [ShuffleBuf.push_one]
    rw [if_neg]
    omega
  · rw [ShuffleBuf.push_many_eq]
    show min data.length (s.buf.length - s.write_idx) = 0
    omega
  · simp only [ShuffleBuf.read_one]
    rw [if_neg]
    omega
  · simp only [ShuffleBuf.read_many]
    split
    · next hpos => exact absurd hpos (by omega)
    · rfl
  · show s.write_idx - s.read_idx = 0
    omega
  · show s.buf.length - s.write_idx = 0
    omega

theorem C8_zero_capacity_witness :
    ((ShuffleBuf.default 0).push_one 5).2 = 0 ∧
      ((ShuffleBuf.default 0).push_many [1, 2, 3]).2 = 0 ∧
      (ShuffleBuf.default 0).read_one.2.1 = 0 ∧
      ((ShuffleBuf.default 0).read_many [0, 0]).2.2 = 0 ∧
      (ShuffleBuf.default 0).available = 0 ∧ (ShuffleBuf.default 0).vacant = 0 :=
  C8_zero_capacity (ShuffleBuf.default 0) (by decide) (by decide) 5 [1, 2, 3] [0, 0]

set_option maxRecDepth 10000 in
/-- C7: capacity-256 scenario: pushing 256 bytes fills the buffer, a further
push returns 0, reading 60 bytes leaves `available() = 196`, and a subsequent
push of 60 bytes returns 60 because the compaction run by the read freed 60
bytes of tail space. -/
theorem C7_compaction_scenario :
    ((ShuffleBuf.default 256).push_many (List.replicate 256 7)).2 = 256 ∧
      (((ShuffleBuf.default 256).push_many (List.replicate 256 7)).1.push_many
        (List.replicate 10 9)).2 = 0 ∧
      (((ShuffleBuf.default 256).push_many (List.replicate 256 7)).1.read_many
        (List.replicate 60 0)).2.2 = 60 ∧
      (((ShuffleBuf.default 256).push_many (List.replicate 256 7)).1.read_many
        (List.replicate 60 0)).1.available = 196 ∧
      ((((ShuffleBuf.default 256).push_many (List.replicate 256 7)).1.read_many
        (List.replicate 60 0)).1.push_many (List.replicate 60 3)).2 = 60 := by
  decide

/-- C4 is refuted: on the reachable state obtained by `push_one 42` then
`read_one` on a fresh capacity-8 buffer, `read_idx = 1`; the following
`read_many` call copies zero bytes, performs no compaction, and leaves
`read_idx = 1 ≠ 0`, contradicting "read_idx = 0 holds after every read_many
call". -/
theorem C4_counterexample :
    (runOps (ShuffleBuf.default 8) [Op.pushOne 42, Op.readOne]).read_idx = 1 ∧
      ((runOps (ShuffleBuf.default 8) [Op.pushOne 42, Op.readOne]).read_many
        [0, 0, 0]).2.2 = 0 ∧
      ((runOps (ShuffleBuf.default 8) [Op.pushOne 42, Op.readOne]).read_many
        [0, 0, 0]).1.read_idx = 1 := by
  decide

/-- C4 amended: `read_many` triggers compaction afterward exactly when the
buffer holds unread data (`available > 0`) before the call — in that case
`read_idx = 0` afterward, even when zero bytes are copied because `out_buf`
is empty.  When `available = 0` the call returns 0 and leaves the state
(including a nonzero `read_idx`) completely unchanged. -/
theorem C4_amended_compaction (s : ShuffleBuf) (out_buf : List Nat) :
    (0 < s.available → (s.read_many out_buf).1.read_idx = 0) ∧
      (s.available = 0 → s.read_many out_buf = (s, out_buf, 0)) := by
  constructor
  · intro h
    simp only [ShuffleBuf.read_many]
    rw [if_pos (show s.write_idx - s.read_idx > 0 from h)]
    exact ShuffleBuf.shuffle_up_read_idx _
  · intro h
    simp only [ShuffleBuf.read_many]
    rw [if_neg]
    have h' : s.write_idx - s.read_idx = 0 := h
    omega

theorem C4_amended_compaction_witness :
    (0 < ({ buf := [5, 6], read_idx := 0, write_idx := 2 } : ShuffleBuf).available ∧
      (({ buf := [5, 6], read_idx := 0, write_idx := 2 } : ShuffleBuf).read_many
        [0]).1.read_idx = 0) ∧
      (({ buf := [9, 8], read_idx := 1, write_idx := 1 } : ShuffleBuf).available = 0 ∧
        ({ buf := [9, 8], read_idx := 1, write_idx := 1 } : ShuffleBuf).read_many [0] =
          ({ buf := [9, 8], read_idx := 1, write_idx := 1 }, [0], 0)) :=
  ⟨⟨by decide, (C4_amended_compaction { buf := [5, 6], read_idx := 0, write_idx := 2 }
      [0]).1 (by decide)⟩,
    ⟨by decide, (C4_amended_compaction { buf := [9, 8], read_idx := 1, write_idx := 1 }
      [0]).2 (by decide)⟩⟩

theorem sliceOf_drop (l : List Nat) (lo hi k : Nat) :
    sliceOf l (lo + k) hi = (sliceOf l lo hi).drop k := by
  simp only [sliceOf, List.drop_take, List.drop_drop]
  congr 1
  omega

theorem ShuffleBuf.contents_shuffle_up (s : ShuffleBuf) (h : Invariant s) :
    contents s.shuffle_up = contents s := by
  obtain ⟨h1, h2⟩ := h
  rw [shuffle_up_eq s ⟨h1, h2⟩]
  show sliceOf (writeAt s.buf 0 (sliceOf s.buf s.read_idx s.write_idx)) 0
      (s.write_idx - s.read_idx) = contents s
  have hseg : (sliceOf s.buf s.read_idx s.write_idx).length = s.write_idx - s.read_idx :=
    sliceOf_length _ _ _ h2
  rw [writeAt]
  simp only [List.take_zero, List.nil_append, Nat.zero_add]
  rw [sliceOf]
  simp only [List.drop_zero, Nat.sub_zero]
  rw [List.take_append_of_le_length (by omega), List.take_of_length_le (by omega)]
  rfl

theorem ShuffleBuf.contents_push_many (s : ShuffleBuf) (data : List Nat) (h : Invariant s) :
    contents (s.push_many data).1 = contents s ++ data.take (s.push_many data).2 := by
  obtain ⟨h1, h2⟩ := h
  rw [ShuffleBuf.push_many_eq]
  show sliceOf
      (writeAt s.buf s.write_idx (data.take (min data.length (s.buf.length - s.write_idx))))
      s.read_idx (s.write_idx + min data.length (s.buf.length - s.write_idx)) =
    sliceOf s.buf s.read_idx s.write_idx ++
      data.take (min data.length (s.buf.length - s.write_idx))
  set c := min data.length (s.buf.length - s.write_idx) with hc
  have hcd : c ≤ data.length := Nat.min_le_left _ _
  have hcv : s.write_idx + c ≤ s.buf.length := by omega
  have htc : (data.take c).length = c := by
    simp only [List.length_take]
    omega
  rw [writeAt, htc, List.append_assoc]
  rw [sliceOf, List.drop_append_of_le_length (by
    simp only [List.length_take]
    omega)]
  have hATl : ((s.buf.take s.write_idx).drop s.read_idx).length = s.write_idx - s.read_idx := by
    simp only [List.length_drop, List.length_take]
    omega
  rw [List.take_append_eq_append_take, hATl]
  rw [List.take_of_length_le (by rw [hATl]; omega)]
  have hn : s.write_idx + c - s.read_idx - (s.write_idx - s.read_idx) = c := by omega
  rw [hn]
  rw [List.take_append_of_le_length (by omega)]
  rw [List.take_take, Nat.min_self]
  rw [List.drop_take]
  rfl

theorem ShuffleBuf.push_one_eq_push_many (s : ShuffleBuf) (b : Nat) :
    s.push_one b = s.push_many [b] := by
  simp only [push_one, push_many]
  by_cases hw : s.buf.length > s.write_idx
  · rw [if_pos hw, if_pos (show s.buf.length - s.write_idx > 0 by omega)]
    have hcnt : (if ([b] : List Nat).length < s.buf.length - s.write_idx
        then ([b] : List Nat).length else s.buf.length - s.write_idx) = 1 := by
      simp only [List.length_cons, List.length_nil]
      split <;> omega
    rw [hcnt]
    have hset : s.buf.set s.write_idx b =
        writeAt s.buf s.write_idx (([b] : List Nat).take 1) := by
      rw [List.set_eq_take_append_cons_drop, if_pos hw]
      simp [writeAt]
    rw [hset]
  · rw [if_neg hw, if_neg (show ¬s.buf.length - s.write_idx > 0 by omega)]

theorem ShuffleBuf.read_one_count (s : ShuffleBuf) :
    s.read_one.2.1 = if s.write_idx > s.read_idx then 1 else 0 := by
  simp only [read_one]
  split
  · next h => simp [h]
  · next h => simp [h]

theorem ShuffleBuf.contents_read_one (s : ShuffleBuf) (h : Invariant s) :
    contents s.read_one.1 = (contents s).drop s.read_one.2.1 ∧
      (s.read_one.2.1 = 1 → s.read_one.2.2 :: contents s.read_one.1 = contents s) := by
  obtain ⟨h1, h2⟩ := h
  simp only [read_one]
  split
  · next hrw =>
    have hinv1 : Invariant { s with read_idx := s.read_idx + 1 } :=
      ⟨Nat.succ_le_of_lt hrw, h2⟩
    have hc1 : contents { s with read_idx := s.read_idx + 1 } = (contents s).drop 1 := by
      show sliceOf s.buf (s.read_idx + 1) s.write_idx = (contents s).drop 1
      exact sliceOf_drop s.buf s.read_idx s.write_idx 1
    have hc2 : contents (if s.read_idx + 1 > 4
        then ({ s with read_idx := s.read_idx + 1 } : ShuffleBuf).shuffle_up
        else { s with read_idx := s.read_idx + 1 }) = (contents s).drop 1 := by
      split
      · rw [ShuffleBuf.contents_shuffle_up _ hinv1]
        exact hc1
      · exact hc1
    refine ⟨hc2, fun _ => ?_⟩
    have hrlen : s.read_idx < s.buf.length := by omega
    have hdrop : s.buf.drop s.read_idx =
        s.buf[s.read_idx] :: s.buf.drop (s.read_idx + 1) :=
      List.drop_eq_getElem_cons hrlen
    have hgd : s.buf.getD s.read_idx 0 = s.buf[s.read_idx] :=
      List.getD_eq_getElem s.buf 0 hrlen
    show s.buf.getD s.read_idx 0 :: contents (if s.read_idx + 1 > 4
        then ({ s with read_idx := s.read_idx + 1 } : ShuffleBuf).shuffle_up
        else { s with read_idx := s.read_idx + 1 }) = contents s
    rw [hc2, hgd]
    show s.buf[s.read_idx] :: (sliceOf s.buf s.read_idx s.write_idx).drop 1 =
      sliceOf s.buf s.read_idx s.write_idx
    rw [← sliceOf_drop]
    show s.buf[s.read_idx] :: sliceOf s.buf (s.read_idx + 1) s.write_idx =
      sliceOf s.buf s.read_idx s.write_idx
    simp only [sliceOf]
    rw [hdrop]
    have hsub : s.write_idx - s.read_idx = (s.write_idx - (s.read_idx + 1)) + 1 := by omega
    rw [hsub, List.take_succ_cons]
  · exact ⟨rfl, fun habs => absurd (show (0 : Nat) = 1 from habs) (by omega)⟩

theorem ShuffleBuf.read_many_spec (s : ShuffleBuf) (out_buf : List Nat) (h : Invariant s) :
    (s.read_many out_buf).2.1.take (s.read_many out_buf).2.2 =
        (contents s).take (s.read_many out_buf).2.2 ∧
      contents (s.read_many out_buf).1 = (contents s).drop (s.read_many out_buf).2.2 ∧
      (s.read_many out_buf).2.1.drop (s.read_many out_buf).2.2 =
        out_buf.drop (s.read_many out_buf).2.2 := by
  obtain ⟨h1, h2⟩ := h
  simp only [read_many, if_gt_min]
  split
  · next hav =>
    set c := min out_buf.length (s.write_idx - s.read_idx) with hc
    have hcw : s.read_idx + c ≤ s.write_idx := by omega
    have hseg : (sliceOf s.buf s.read_idx (s.read_idx + c)).length = c := by
      rw [sliceOf_length _ _ _ (by omega)]
      omega
    have hinv1 : Invariant { s with read_idx := s.read_idx + c } := ⟨hcw, h2⟩
    refine ⟨?_, ?_, ?_⟩
    · show (writeAt out_buf 0 (sliceOf s.buf s.read_idx (s.read_idx + c))).take c =
        (contents s).take c
      rw [writeAt]
      simp only [List.take_zero, List.nil_append, Nat.zero_add]
      rw [List.take_append_of_le_length (by omega)]
      rw [List.take_of_length_le (by omega)]
      show sliceOf s.buf s.read_idx (s.read_idx + c) = (contents s).take c
      simp only [sliceOf, contents]
      rw [List.take_take]
      congr 1
      omega
    · show contents ({ s with read_idx := s.read_idx + c } : ShuffleBuf).shuffle_up =
        (contents s).drop c
      rw [ShuffleBuf.contents_shuffle_up _ hinv1]
      show sliceOf s.buf (s.read_idx + c) s.write_idx = (contents s).drop c
      exact sliceOf_drop s.buf s.read_idx s.write_idx c
    · show (writeAt out_buf 0 (sliceOf s.buf s.read_idx (s.read_idx + c))).drop c =
        out_buf.drop c
      rw [writeAt]
      simp only [List.take_zero, List.nil_append, Nat.zero_add]
      rw [List.drop_append_of_le_length (by omega)]
      rw [List.drop_eq_nil_of_le (by omega), List.nil_append]
      rw [hseg]
  · exact ⟨rfl, rfl, rfl⟩

/-- C2: FIFO conservation.  The abstract contents of the buffer (the unread
window `buf[read_idx..write_idx]`) evolve like a FIFO queue under every
operation on every invariant-satisfying state: a push appends exactly the
accepted prefix of its input, `read_one` removes and returns the front byte,
and `read_many` delivers exactly the front `read_count` bytes of the contents
in order (leaving the rest of `out_buf` untouched) and removes them — so
every successfully pushed byte that is not yet read remains retrievable,
unmodified, in push order, across any intervening compactions. -/
theorem C2_fifo_conservation (s : ShuffleBuf) (h : Invariant s) (b : Nat)
    (data out_buf : List Nat) :
    contents (s.push_one b).1 = contents s ++ [b].take (s.push_one b).2 ∧
      contents (s.push_many data).1 = contents s ++ data.take (s.push_many data).2 ∧
      contents s.read_one.1 = (contents s).drop s.read_one.2.1 ∧
      (s.read_one.2.1 = 1 → s.read_one.2.2 :: contents s.read_one.1 = contents s) ∧
      (s.read_many out_buf).2.1.take (s.read_many out_buf).2.2 =
        (contents s).take (s.read_many out_buf).2.2 ∧
      contents (s.read_many out_buf).1 = (contents s).drop (s.read_many out_buf).2.2 ∧
      (s.read_many out_buf).2.1.drop (s.read_many out_buf).2.2 =
        out_buf.drop (s.read_many out_buf).2.2 := by
  obtain ⟨hro1, hro2⟩ := ShuffleBuf.contents_read_one s h
  obtain ⟨hrm1, hrm2, hrm3⟩ := ShuffleBuf.read_many_spec s out_buf h
  refine ⟨?_, ShuffleBuf.contents_push_many s data h, hro1, hro2, hrm1, hrm2, hrm3⟩
  rw [ShuffleBuf.push_one_eq_push_many]
  exact ShuffleBuf.contents_push_many s [b] h

theorem C2_fifo_conservation_witness :
    contents (({ buf := [1, 2, 3, 4, 5], read_idx := 1, write_idx := 3 } : ShuffleBuf).push_many
          [7, 8]).1 =
        contents ({ buf := [1, 2, 3, 4, 5], read_idx := 1, write_idx := 3 } : ShuffleBuf) ++
          [7, 8].take
            (({ buf := [1, 2, 3, 4, 5], read_idx := 1, write_idx := 3 } : ShuffleBuf).push_many
              [7, 8]).2 ∧
      ({ buf := [1, 2, 3, 4, 5], read_idx := 1, write_idx := 3 } : ShuffleBuf).read_one.2.2 ::
          contents
            ({ buf := [1, 2, 3, 4, 5], read_idx := 1, write_idx := 3 } : ShuffleBuf).read_one.1 =
        contents ({ buf := [1, 2, 3, 4, 5], read_idx := 1, write_idx := 3 } : ShuffleBuf) :=
  ⟨(C2_fifo_conservation { buf := [1, 2, 3, 4, 5], read_idx := 1, write_idx := 3 } (by decide) 9
      [7, 8] [0, 0]).2.1,
    (C2_fifo_conservation { buf := [1, 2, 3, 4, 5], read_idx := 1, write_idx := 3 } (by decide) 9
      [7, 8] [0, 0]).2.2.2.1 (by decide)⟩

theorem writeAt_getD_of_lt (dst data : List Nat) (pos i : Nat) (hpos : i < pos)
    (hlen : i < dst.length) :
    (writeAt dst pos data).getD i 0 = dst.getD i 0 := by
  simp only [writeAt, List.getD_eq_getElem?_getD, List.getElem?_append, List.getElem?_take,
    List.length_append, List.length_take, List.length_drop]
  rw [if_pos (by omega), if_pos (by omega), if_pos hpos]

theorem ShuffleBuf.push_many_frame (s : ShuffleBuf) (data : List Nat) (h : Invariant s) :
    (s.push_many data).1.read_idx = s.read_idx ∧
      (∀ i, i < s.write_idx → (s.push_many data).1.buf.getD i 0 = s.buf.getD i 0) ∧
      (s.push_many data).1.write_idx = s.write_idx + (s.push_many data).2 ∧
      (s.push_many data).1.available = s.available + (s.push_many data).2 := by
  obtain ⟨h1, h2⟩ := h
  rw [ShuffleBuf.push_many_eq]
  refine ⟨rfl, ?_, rfl, ?_⟩
  · intro i hi
    exact writeAt_getD_of_lt s.buf _ s.write_idx i hi (by omega)
  · show s.write_idx + min data.length (s.buf.length - s.write_idx) - s.read_idx =
      (s.write_idx - s.read_idx) + min data.length (s.buf.length - s.write_idx)
    omega

/-- C10: pushes are frame-preserving: `push_one` and `push_many` never change
`read_idx` and never modify any storage byte at an index below `write_idx`
(in particular the unread window `buf[read_idx..write_idx]`), and when a push
returns count `n` both `write_idx` and `available()` increase by exactly `n`. -/
theorem C10_push_frame (s : ShuffleBuf) (h : Invariant s) (b : Nat) (data : List Nat) :
    (s.push_one b).1.read_idx = s.read_idx ∧
      (s.push_many data).1.read_idx = s.read_idx ∧
      (∀ i, i < s.write_idx → (s.push_one b).1.buf.getD i 0 = s.buf.getD i 0) ∧
      (∀ i, i < s.write_idx → (s.push_many data).1.buf.getD i 0 = s.buf.getD i 0) ∧
      (s.push_one b).1.write_idx = s.write_idx + (s.push_one b).2 ∧
      (s.push_many data).1.write_idx = s.write_idx + (s.push_many data).2 ∧
      (s.push_one b).1.available = s.available + (s.push_one b).2 ∧
      (s.push_many data).1.available = s.available + (s.push_many data).2 := by
  obtain ⟨ha, hb, hc, hd⟩ := ShuffleBuf.push_many_frame s data h
  obtain ⟨ha1, hb1, hc1, hd1⟩ := ShuffleBuf.push_many_frame s [b] h
  rw [ShuffleBuf.push_one_eq_push_many]
  exact ⟨ha1, ha, hb1, hb, hc1, hc, hd1, hd⟩

theorem C10_push_frame_witness :
    (({ buf := [1, 2, 3, 0], read_idx := 1, write_idx := 3 } : ShuffleBuf).push_many
        [7, 8]).1.read_idx = 1 ∧
      (({ buf := [1, 2, 3, 0], read_idx := 1, write_idx := 3 } : ShuffleBuf).push_many
        [7, 8]).1.buf.getD 2 0 = 3 ∧
      (({ buf := [1, 2, 3, 0], read_idx := 1, write_idx := 3 } : ShuffleBuf).push_many
        [7, 8]).1.available = 3 := by
  have h := C10_push_frame { buf := [1, 2, 3, 0], read_idx := 1, write_idx := 3 } (by decide) 9
    [7, 8]
  refine ⟨h.2.1, ?_, ?_⟩
  · have := h.2.2.2.1 2 (by decide)
    exact this.trans (by decide)
  · exact h.2.2.2.2.2.2.2.trans (by decide)

/-- Models checked `usize` subtraction: Rust `a - b` panics when `b > a`. -/
def checkedSub (a b : Nat) : Option Nat :=
  if b ≤ a then some (a - b) else none

/-- Models the indexed read `l[i]`: panics unless `i < l.len()`. -/
def checkedGet (l : List Nat) (i : Nat) : Option Nat :=
  if i < l.length then some (l.getD i 0) else none

/-- Models the indexed write `l[i] = v`: panics unless `i < l.len()`. -/
def checkedSet (l : List Nat) (i v : Nat) : Option (List Nat) :=
  if i < l.length then some (l.set i v) else none

/-- Models the borrow `&l[lo..hi]`: panics unless `lo ≤ hi ≤ l.len()`. -/
def checkedSlice (l : List Nat) (lo hi : Nat) : Option (List Nat) :=
  if lo ≤ hi ∧ hi ≤ l.length then some (sliceOf l lo hi) else none

/-- Models `dst[lo..hi].copy_from_slice(src)`: panics unless
`lo ≤ hi ≤ dst.len()` and `src.len() = hi - lo`. -/
def checkedCopyFromSlice (dst : List Nat) (lo hi : Nat) (src : List Nat) :
    Option (List Nat) :=
  if lo ≤ hi ∧ hi ≤ dst.length ∧ src.length = hi - lo then some (writeAt dst lo src)
  else none

/-- Models `l.copy_within(lo..hi, dest)`: panics unless `lo ≤ hi ≤ l.len()`
and `dest + (hi - lo) ≤ l.len()`. -/
def checkedCopyWithin (l : List Nat) (lo hi dest : Nat) : Option (List Nat) :=
  if lo ≤ hi ∧ hi ≤ l.length ∧ dest + (hi - lo) ≤ l.length then
    some (writeAt l dest (sliceOf l lo hi))
  else none

namespace ShuffleBuf

/-- `shuffle_up` with every Rust panic point (subtraction, `copy_within`
bounds) made explicit. -/
def shuffle_upChecked (s : ShuffleBuf) : Option ShuffleBuf :=
  if s.read_idx > 0 then
    (checkedSub s.write_idx s.read_idx).bind fun avail =>
      (if avail > 0 then checkedCopyWithin s.buf s.read_idx s.write_idx 0
        else some s.buf).map fun buf' =>
        { buf := buf', read_idx := 0, write_idx := avail }
  else some s

/-- `read_one` with every Rust panic point (indexing) made explicit. -/
def read_oneChecked (s : ShuffleBuf) : Option (ShuffleBuf × Nat × Nat) :=
  if s.write_idx > s.read_idx then
    (checkedGet s.buf s.read_idx).bind fun val =>
      (if s.read_idx + 1 > 4 then shuffle_upChecked { s with read_idx := s.read_idx + 1 }
        else some ({ s with read_idx := s.read_idx + 1 } : ShuffleBuf)).map
        fun s2 => (s2, 1, val)
  else some (s, 0, 0)

/-- `read_many` with every Rust panic point (subtraction, slice bounds,
`copy_from_slice` length equality) made explicit. -/
def read_manyChecked (s : ShuffleBuf) (out_buf : List Nat) :
    Option (ShuffleBuf × List Nat × Nat) :=
  (checkedSub s.write_idx s.read_idx).bind fun avail =>
    if avail > 0 then
      (checkedSlice s.buf s.read_idx
          (s.read_idx + if out_buf.length > avail then avail else out_buf.length)).bind
        fun src =>
        (checkedCopyFromSlice out_buf 0
            (if out_buf.length > avail then avail else out_buf.length) src).bind fun out' =>
          (shuffle_upChecked { s with read_idx := s.read_idx +
              (if out_buf.length > avail then avail else out_buf.length) }).map
            fun s' => (s', out',
              if out_buf.length > avail then avail else out_buf.length)
    else some (s, out_buf, 0)

/-- `push_one` with every Rust panic point (indexed write) made explicit. -/
def push_oneChecked (s : ShuffleBuf) (data : Nat) : Option (ShuffleBuf × Nat) :=
  if s.buf.length > s.write_idx then
    (checkedSet s.buf s.write_idx data).map
      fun buf' => ({ s with buf := buf', write_idx := s.write_idx + 1 }, 1)
  else some (s, 0)

/-- `push_many` with every Rust panic point (subtraction, slice bounds,
`copy_from_slice` length equality) made explicit. -/
def push_manyChecked (s : ShuffleBuf) (data : List Nat) : Option (ShuffleBuf × Nat) :=
  (checkedSub s.buf.length s.write_idx).bind fun vacant =>
    if vacant > 0 then
      (checkedSlice data 0 (if data.length < vacant then data.length else vacant)).bind
        fun src =>
        (checkedCopyFromSlice s.buf s.write_idx
            (s.write_idx + if data.length < vacant then data.length else vacant) src).map
          fun buf' =>
            ({ s with
                buf := buf'
                write_idx :=
                  s.write_idx + (if data.length < vacant then data.length else vacant) },
              if data.length < vacant then data.length else vacant)
    else some (s, 0)

theorem shuffle_upChecked_eq (s : ShuffleBuf) (h : Invariant s) :
    s.shuffle_upChecked = some s.shuffle_up := by
  obtain ⟨h1, h2⟩ := h
  simp only [shuffle_upChecked, shuffle_up, checkedSub, checkedCopyWithin]
  by_cases hr : s.read_idx > 0
  · rw [if_pos hr, if_pos hr, if_pos h1]
    simp only [Option.some_bind]
    by_cases ha : s.write_idx - s.read_idx > 0
    · rw [if_pos ha, if_pos ha, if_pos ⟨h1, h2, by omega⟩]
      rfl
    · rw [if_neg ha, if_neg ha]
      rfl
  · rw [if_neg hr, if_neg hr]

theorem read_oneChecked_eq (s : ShuffleBuf) (h : Invariant s) :
    s.read_oneChecked = some s.read_one := by
  obtain ⟨h1, h2⟩ := h
  simp only [read_oneChecked, read_one, checkedGet]
  by_cases hrw : s.write_idx > s.read_idx
  · rw [if_pos hrw, if_pos hrw, if_pos (by omega)]
    simp only [Option.some_bind]
    by_cases h4 : s.read_idx + 1 > 4
    · rw [if_pos h4, if_pos h4,
        shuffle_upChecked_eq { s with read_idx := s.read_idx + 1 }
          ⟨Nat.succ_le_of_lt hrw, h2⟩]
      rfl
    · rw [if_neg h4, if_neg h4]
      rfl
  · rw [if_neg hrw, if_neg hrw]

theorem read_manyChecked_eq (s : ShuffleBuf) (out_buf : List Nat) (h : Invariant s) :
    s.read_manyChecked out_buf = some (s.read_many out_buf) := by
  obtain ⟨h1, h2⟩ := h
  simp only [read_manyChecked, read_many, checkedSub, checkedSlice, checkedCopyFromSlice]
  rw [if_pos h1]
  simp only [Option.some_bind]
  by_cases ha : s.write_idx - s.read_idx > 0
  · rw [if_pos ha, if_pos ha]
    set c := if out_buf.length > s.write_idx - s.read_idx then s.write_idx - s.read_idx
      else out_buf.length with hc
    have hcle : c ≤ s.write_idx - s.read_idx := by
      rw [hc]
      split <;> omega
    have hcout : c ≤ out_buf.length := by
      rw [hc]
      split <;> omega
    have hslen : (sliceOf s.buf s.read_idx (s.read_idx + c)).length = c := by
      rw [sliceOf_length _ _ _ (by omega)]
      omega
    rw [if_pos ⟨by omega, by omega⟩]
    simp only [Option.some_bind]
    rw [if_pos ⟨Nat.zero_le _, by omega, by rw [hslen]; omega⟩]
    simp only [Option.some_bind]
    rw [shuffle_upChecked_eq { s with read_idx := s.read_idx + c }
      ⟨show s.read_idx + c ≤ s.write_idx by omega, h2⟩]
    rfl
  · rw [if_neg ha, if_neg ha]

theorem push_oneChecked_eq (s : ShuffleBuf) (b : Nat) :
    s.push_oneChecked b = some (s.push_one b) := by
  simp only [push_oneChecked, push_one, checkedSet]
  by_cases hw : s.buf.length > s.write_idx
  · rw [if_pos hw, if_pos hw, if_pos hw]
    rfl
  · rw [if_neg hw, if_neg hw]

theorem push_manyChecked_eq (s : ShuffleBuf) (data : List Nat) (h : Invariant s) :
    s.push_manyChecked data = some (s.push_many data) := by
  obtain ⟨h1, h2⟩ := h
  simp only [push_manyChecked, push_many, checkedSub, checkedSlice, checkedCopyFromSlice]
  rw [if_pos h2]
  simp only [Option.some_bind]
  by_cases hv : s.buf.length - s.write_idx > 0
  · rw [if_pos hv, if_pos hv]
    set c := if data.length < s.buf.length - s.write_idx then data.length
      else s.buf.length - s.write_idx with hc
    have hcd : c ≤ data.length := by
      rw [hc]
      split <;> omega
    have hcv : s.write_idx + c ≤ s.buf.length := by
      rw [hc]
      split <;> omega
    have hslen : (sliceOf data 0 c).length = c := by
      rw [sliceOf_length _ _ _ (by omega)]
      omega
    rw [if_pos ⟨Nat.zero_le _, by omega⟩]
    simp only [Option.some_bind]
    rw [if_pos ⟨by omega, by omega, by rw [hslen]; omega⟩]
    show some _ = some _
    have hsrc : sliceOf data 0 c = data.take c := by
      simp [sliceOf]
    rw [hsrc]
  · rw [if_neg hv, if_neg hv]

end ShuffleBuf

/-- C5: no operation panics: for every buffer state satisfying the invariant
and every input, the checked variants of `push_one`, `push_many`, `read_one`,
`read_many` (and, inside them, `shuffle_up`) — in which every Rust slice
index, range, `copy_from_slice`/`copy_within` bound and `usize` subtraction
is an explicit failure point — succeed and return exactly the value of the
total model, so each operation totally returns a count. -/
theorem C5_no_panic (s : ShuffleBuf) (h : Invariant s) (b : Nat)
    (data out_buf : List Nat) :
    s.push_oneChecked b = some (s.push_one b) ∧
      s.push_manyChecked data = some (s.push_many data) ∧
      s.read_oneChecked = some s.read_one ∧
      s.read_manyChecked out_buf = some (s.read_many out_buf) :=
  ⟨s.push_oneChecked_eq b, s.push_manyChecked_eq data h, s.read_oneChecked_eq h,
    s.read_manyChecked_eq out_buf h⟩

theorem C5_no_panic_witness :
    ({ buf := [1, 2, 3, 4, 5, 6], read_idx := 4, write_idx := 5 } : ShuffleBuf).read_oneChecked =
        some ({ buf := [1, 2, 3, 4, 5, 6], read_idx := 4, write_idx := 5 } : ShuffleBuf).read_one ∧
      ({ buf := [1, 2, 3, 4, 5, 6], read_idx := 4, write_idx := 5 } : ShuffleBuf).read_manyChecked
          [0, 0] =
        some (({ buf := [1, 2, 3, 4, 5, 6], read_idx := 4, write_idx := 5 } : ShuffleBuf).read_many
          [0, 0]) :=
  ⟨(C5_no_panic { buf := [1, 2, 3, 4, 5, 6], read_idx := 4, write_idx := 5 } (by decide) 9 [7]
      [0, 0]).2.2.1,
    (C5_no_panic { buf := [1, 2, 3, 4, 5, 6], read_idx := 4, write_idx := 5 } (by decide) 9 [7]
      [0, 0]).2.2.2⟩
